import Mathlib

/-!
Verification of the `stack-distance` repository.

The development shallowly embeds the two source files:

* `src/trace.rs` — the `Trace` analysis operations (`stack_distance`,
  `stack_distance_histogram`, `frequency_histogram`, `Display`) and the
  canonical-trace enumerator `TraceIter`;
* `src/main.rs` — the driver's `compare` invariant.

Symbols (`u32`) and sizes (`usize`) are modelled as `Nat`; no operation in the
claims approaches the machine-word bound (and in debug builds the program would
panic on overflow rather than emit a wrong value).  Rust's panicking indexed
assignment `v[i] += 1` is embedded as `incAt`, which returns `none` when the
index is out of bounds, so `none` marks exactly the executions that would
panic.  Each `def` mirrors the corresponding Rust item; the iterator protocol
of `TraceIter` is embedded as an explicit state (`Option (List Nat)`, `none`
meaning the internal `next` field is `None`) with a pure transition
`TraceIter.next` returning the emitted element and the successor state.
-/

/-- One step of `Trace::stack_distance`'s loop body (src/trace.rs lines 27-34):
look the current symbol up in the LRU stack (`Vec::position` — index of the
first match), record `stack.len() - position - 1` (the stack is right-to-left)
or `None` when absent, remove the found entry, and push the symbol on top
(the end of the vector).  Returns the recorded distance and the new stack. -/
def sdStep (stack : List Nat) (curr : Nat) : Option Nat × List Nat :=
  match stack.findIdx? (fun n => n == curr) with
  | some p => (some (stack.length - p - 1), stack.eraseIdx p ++ [curr])
  | none => (none, stack ++ [curr])

/-- The loop of `Trace::stack_distance`, processing the trace left to right. -/
def stack_distance_go (stack : List Nat) : List Nat → List (Option Nat)
  | [] => []
  | curr :: rest =>
    (sdStep stack curr).1 :: stack_distance_go (sdStep stack curr).2 rest

/-- Embedding of `Trace::stack_distance` (src/trace.rs lines 22-37): per-access stack
distances, `none` encoding the "infinite" (cold miss) entries. -/
def stack_distance (t : List Nat) : List (Option Nat) :=
  stack_distance_go [] t

/-- Rust's `Iterator::max` on a list of `Nat`: `None` on the empty list,
otherwise the maximum. -/
def listMax? (l : List Nat) : Option Nat :=
  if l.isEmpty then none else some (l.foldr max 0)

/-- The indexed increment `v[i] += 1`.  Rust panics when `i` is out of
bounds; the panic is embedded as `none`. -/
def incAt (l : List Nat) (i : Nat) : Option (List Nat) :=
  if h : i < l.length then some (l.set i (l.get ⟨i, h⟩ + 1)) else none

/-- The accumulation loop of `Trace::stack_distance_histogram`
(src/trace.rs lines 50-57): bump `freqs[i]` for a finite distance, bump the
infinity counter otherwise. -/
def histGo : List (Option Nat) → List Nat → Nat → Option (List Nat × Nat)
  | [], freqs, infinities => some (freqs, infinities)
  | none :: rest, freqs, infinities => histGo rest freqs (infinities + 1)
  | some i :: rest, freqs, infinities =>
    match incAt freqs i with
    | some freqs2 => histGo rest freqs2 infinities
    | none => none

/-- Embedding of `Trace::stack_distance_histogram` (src/trace.rs lines 42-60): the count
vector is sized `max finite distance + 1` (empty when there is no finite
distance), paired with the count of infinities. -/
def stack_distance_histogram (t : List Nat) : Option (List Nat × Nat) :=
  let distances := stack_distance t
  let freqs := match listMax? (distances.filterMap id) with
    | none => ([] : List Nat)
    | some m => List.replicate (m + 1) 0
  histGo distances freqs 0

/-- The accumulation loop of `Trace::frequency_histogram`
(src/trace.rs lines 68-70). -/
def freqGo : List Nat → List Nat → Option (List Nat)
  | [], freqs => some freqs
  | i :: rest, freqs =>
    match incAt freqs i with
    | some freqs2 => freqGo rest freqs2
    | none => none

/-- Embedding of `Trace::frequency_histogram` (src/trace.rs lines 65-73): the count vector
is sized `max symbol + 1` (`map_or(0, |n| n + 1)`). -/
def frequency_histogram (t : List Nat) : Option (List Nat) :=
  freqGo t (List.replicate ((listMax? t).map (· + 1) |>.getD 0) 0)

/-- The branch condition of `Display for Trace` (src/trace.rs line 78):
`self.trace.iter().max().map_or(true, |&n| n < 26)`. -/
def belowLetters (t : List Nat) : Bool :=
  match listMax? t with
  | none => true
  | some m => m < 26

/-- Embedding of `Display for Trace` (src/trace.rs lines 76-93): letters
`char::from_u32(i + 'A' as u32)` concatenated when every symbol is below 26
(the `from_u32` values are valid in that branch, so `Char.ofNat` never takes
its default), otherwise `write!("{} ", i)` for each symbol — each decimal
value followed by a space. -/
def traceDisplay (t : List Nat) : String :=
  if belowLetters t then String.mk (t.map fun i => Char.ofNat (i + 65))
  else String.join (t.map fun i => toString i ++ " ")

/-- Itertools' `unique()` (stable, keeps the first occurrence), with the set
of already-seen values as an explicit accumulator. -/
def uniqueAux (seen : List Nat) : List Nat → List Nat
  | [] => []
  | x :: xs => if x ∈ seen then uniqueAux seen xs else x :: uniqueAux (x :: seen) xs

/-- Embedding of `next.iter().unique().collect()` from `TraceIter::next`
(src/trace.rs line 114). -/
def unique (l : List Nat) : List Nat := uniqueAux [] l

/-- The mutation performed before each emitting `break` in `TraceIter::next`:
`next[i] = v` followed by zeroing every position after `i`
(src/trace.rs lines 136-141 and 161-166). -/
def setAndZero (s : List Nat) (i : Nat) (v : Nat) : List Nat :=
  s.take i ++ v :: List.replicate (s.length - i - 1) 0

/-- The right-to-left scan of `TraceIter::next` (src/trace.rs lines 116-169).
The fuel argument `i + 1` means the scan is at position `i`; `0` means the
loop ran off the front without a `break`, leaving the buffer unchanged.
Result `none` embeds `self.next = None` (exhaustion); `some s'` is the buffer
after the step.  The branches, in source order: at the end of the symbol
list and not the first occurrence — increment and zero the tail; at `i = 0` —
exhausted; `n <= next[i - 1]` — adopt the next distinct symbol and zero the
tail; otherwise move left. -/
def scanGo (s symbols : List Nat) : Nat → Option (List Nat)
  | 0 => some s
  | i + 1 =>
    let v := s.getD i 0
    let rank := symbols.findIdx (fun x => x == v)
    if rank = symbols.length - 1 then
      if s.findIdx (fun x => x == v) ≠ i then some (setAndZero s i (v + 1))
      else scanGo s symbols i
    else if i = 0 then none
    else if v ≤ s.getD (i - 1) 0 then some (setAndZero s i (symbols.getD (rank + 1) 0))
    else scanGo s symbols i

/-- The whole state update of `TraceIter::next` on an `Active` buffer. -/
def TraceIter.step (s : List Nat) : Option (List Nat) :=
  scanGo s (unique s) s.length

/-- Embedding of `TraceIter::new` (src/trace.rs lines 100-104): the initial state holds the
all-zero buffer. -/
def TraceIter.new (n : Nat) : Option (List Nat) :=
  some (List.replicate n 0)

/-- Embedding of `TraceIter::next` (src/trace.rs lines 110-173) as a pure transition:
returns the emitted item (the buffer cloned before the scan) and the state
after the scan. -/
def TraceIter.next (st : Option (List Nat)) : Option (List Nat) × Option (List Nat) :=
  match st with
  | none => (none, none)
  | some s => (some s, TraceIter.step s)

/-- The first `k` results of calling `TraceIter::next` repeatedly. -/
def runIter : Option (List Nat) → Nat → List (Option (List Nat))
  | _, 0 => []
  | st, k + 1 =>
    (TraceIter.next st).1 :: runIter (TraceIter.next st).2 k

/-! Specification-side definitions (from the spec's wording, for comparison
with the embedded code). -/

/-- The value `max(s[0..i))`, the maximum of the prefix strictly before `i` (`0` for the
empty prefix). -/
def prefixMaxAt (s : List Nat) (i : Nat) : Nat :=
  (s.take i).foldr max 0

/-- The canonical-form (restricted growth string) invariant exactly as the
spec states it: `s[0] = 0`, and for every `i > 0`,
`s[i] ≤ 1 + max(s[0..i))`. -/
def canonical (s : List Nat) : Prop :=
  (0 < s.length → s.getD 0 0 = 0) ∧
  ∀ i, 0 < i → i < s.length → s.getD i 0 ≤ prefixMaxAt s i + 1

/-- Restricted-growth check with an explicit bound accumulator: `a` is the
largest value allowed at the current position (`0` at the start, and
`max a (x + 1)` after reading `x`).  Equivalent to `canonical`
(`canonical_iff_isRGS`); the accumulator form drives the inductions. -/
def isRGS (a : Nat) : List Nat → Bool
  | [] => true
  | x :: xs => if x ≤ a then isRGS (max a (x + 1)) xs else false

/-- The accumulator of `isRGS` after reading a list. -/
def rgsAcc (a : Nat) (l : List Nat) : Nat :=
  l.foldl (fun acc x => max acc (x + 1)) a

/-- The value `maxS l = max (x + 1) over x in l` (and `0` for the empty list): the bound
a restricted growth string may not exceed after the prefix `l`. -/
def maxS (l : List Nat) : Nat :=
  l.foldr (fun x m => max (x + 1) m) 0

/-- The abstract LRU update: drop the symbol and push it on top (the end). -/
def lruUpd (stack : List Nat) (c : Nat) : List Nat :=
  stack.filter (fun x => x ≠ c) ++ [c]

/-- The LRU stack after processing a whole prefix. -/
def lruStack (p : List Nat) : List Nat :=
  p.foldl lruUpd []

/-- The `i`-th entry of the stack-distance sequence. -/
def sdAt (t : List Nat) (i : Nat) : Option Nat :=
  (stack_distance t).getD i none

/-! Easy computational claims. -/

/-- Claim C1 (code_bug evaluation).  The claim says the enumerator is
exhausted after emitting exactly `B(n)` traces with no duplicates for every
`n ≥ 0`.  For `n = 1` (`B(1) = 1`) and `n = 0` (`B(0) = 1`) the scan falls
off the front of the loop without ever taking the `self.next = None` branch,
so the state never becomes exhausted: the iterator emits the all-zero trace
over and over.  This theorem evaluates the embedded code at those inputs. -/
theorem C1_code_eval :
    runIter (TraceIter.new 1) 3 = [some [0], some [0], some [0]] ∧
    runIter (TraceIter.new 0) 2 = [some [], some []] ∧
    TraceIter.step [0] = some [0] ∧
    TraceIter.step ([] : List Nat) = some [] := by decide

/-- Claim C2.  Running the enumerator for `n = 3` emits exactly the five
traces `{000, 001, 010, 011, 012}` and is then exhausted, and for `n = 4`
exactly the fifteen claimed traces followed by exhaustion.  The full output
lists (in emission order) pin down the emitted sets. -/
theorem C2_exact_sets :
    runIter (TraceIter.new 3) 6 =
      [some [0,0,0], some [0,0,1], some [0,1,0], some [0,1,1], some [0,1,2], none] ∧
    runIter (TraceIter.new 4) 16 =
      [some [0,0,0,0], some [0,0,0,1], some [0,0,1,0], some [0,0,1,1], some [0,0,1,2],
       some [0,1,0,0], some [0,1,0,1], some [0,1,0,2], some [0,1,1,0], some [0,1,1,1],
       some [0,1,1,2], some [0,1,2,0], some [0,1,2,1], some [0,1,2,2], some [0,1,2,3],
       none] := by decide

/-- Claim C4 (counterexample).  The claim: at scan position `i`, with
`distinct` the stable dedup of the prefix `s[0..i]` inclusive and `rank` the
index of `s[i]` in it, whenever `rank` is NOT the last index of `distinct`
and the first occurrence of `s[i]` is not at `i`, the step sets
`s[i] := s[i] + 1` and zeroes the tail.  At `s = [0,1,2,0,1]` the scan starts
at `i = 4`, both stated conditions hold (`rank = 1` of `[0,1,2]`, first
occurrence of `1` is position `1`), yet the code falls through (because
`s[4] > s[3]`) and instead produces `[0,1,2,1,0]`, not `[0,1,2,0,2]`. -/
theorem C4_counterexample :
    (List.findIdx (fun x => x == List.getD [0,1,2,0,1] 4 0)
        (unique (List.take 5 [0,1,2,0,1])) ≠
      (unique (List.take 5 [0,1,2,0,1])).length - 1) ∧
    List.findIdx (fun x => x == List.getD [0,1,2,0,1] 4 0) [0,1,2,0,1] ≠ 4 ∧
    TraceIter.step [0,1,2,0,1] ≠
      some (setAndZero [0,1,2,0,1] 4 (List.getD [0,1,2,0,1] 4 0 + 1)) ∧
    TraceIter.step [0,1,2,0,1] = some [0,1,2,1,0] := by decide

/-- Claim C4 (amended).  With `distinct` the stable dedup of the WHOLE
current sequence (as the code computes it) and `rank` the index of `s[i]` in
it: whenever the scan is at position `i`, `rank` IS the last index of
`distinct`, and the first occurrence of `s[i]` in the whole sequence is not
at `i`, the step sets `s[i] := s[i] + 1`, zeroes every later position, and
emits (`scanGo` with fuel `i + 1` is the scan at position `i`). -/
theorem C4_amended (s : List Nat) (i : Nat)
    (h1 : (unique s).findIdx (fun x => x == s.getD i 0) = (unique s).length - 1)
    (h2 : s.findIdx (fun x => x == s.getD i 0) ≠ i) :
    scanGo s (unique s) (i + 1) = some (setAndZero s i (s.getD i 0 + 1)) := by
  simp only [scanGo]
  rw [if_pos h1, if_pos h2]

/-- Witness for `C4_amended` at `s = [0,0]`, `i = 1`: the conditions hold and
the scan produces `[0,1]`. -/
theorem C4_witness :
    scanGo [0,0] (unique [0,0]) 2 = some (setAndZero [0,0] 1 (List.getD [0,0] 1 0 + 1)) :=
  C4_amended [0,0] 1 (by decide) (by decide)

/-- Claim C8.  On the empty trace every analysis operation returns the
empty/zero result (and in particular does not hit the panicking branch). -/
theorem C8_empty_trace :
    stack_distance [] = [] ∧
    stack_distance_histogram [] = some ([], 0) ∧
    frequency_histogram [] = some [] := by decide

/-- Claim C9 (counterexample).  For a trace containing a symbol `≥ 26` the
claim says the rendering is the decimal values separated by spaces; the code
writes `"{} "` for every symbol, so the rendering of `[26]` is `"26 "` with a
trailing space, not `"26"`. -/
theorem C9_counterexample :
    traceDisplay [26] = "26 " ∧ traceDisplay [26] ≠ "26" := by decide

/-! Helper lemmas: the indexed increment and the histogram folds. -/

theorem incAt_eq_some {l : List Nat} {i : Nat} (h : i < l.length) :
    incAt l i = some (l.set i (l.getD i 0 + 1)) := by
  simp [incAt, h, List.getD_eq_getElem _ _ h]

theorem sum_set_succ {l : List Nat} {i : Nat} (h : i < l.length) :
    (l.set i (l.getD i 0 + 1)).sum = l.sum + 1 := by
  have h2 : l.sum = (l.take i).sum + (l.getD i 0 + (l.drop (i + 1)).sum) := by
    conv_lhs => rw [← List.take_append_drop i l]
    rw [List.sum_append, List.drop_eq_getElem_cons h, List.sum_cons,
      List.getD_eq_getElem _ _ h]
  rw [List.sum_set, if_pos h, h2]
  omega

theorem getD_set_self {l : List Nat} {i : Nat} (x : Nat) (h : i < l.length) :
    (l.set i x).getD i 0 = x := by
  rw [List.getD_eq_getElem?_getD, List.getElem?_set_self h]
  rfl

theorem getD_set_ne {l : List Nat} {i j : Nat} (x : Nat) (hij : i ≠ j) :
    (l.set i x).getD j 0 = l.getD j 0 := by
  rw [List.getD_eq_getElem?_getD, List.getElem?_set_ne hij, ← List.getD_eq_getElem?_getD]

theorem getD_replicate_zero : ∀ (k v : Nat), (List.replicate k 0).getD v 0 = 0 := by
  intro k
  induction k with
  | zero => intro v; rfl
  | succ k ih =>
    intro v
    cases v with
    | zero => rfl
    | succ v => simp only [List.replicate_succ, List.getD_cons_succ, ih v]

theorem countNone_add_countSome (ds : List (Option Nat)) :
    ds.countP (fun o => o.isNone) + ds.countP (fun o => o.isSome) = ds.length := by
  induction ds with
  | nil => rfl
  | cons o rest ih =>
    cases o <;> simp [List.countP_cons, ← ih] <;> omega

theorem histGo_spec (ds : List (Option Nat)) :
    ∀ (freqs : List Nat) (inf : Nat), (∀ d, some d ∈ ds → d < freqs.length) →
    ∃ f2, histGo ds freqs inf = some (f2, inf + ds.countP (fun o => o.isNone)) ∧
      f2.length = freqs.length ∧ f2.sum = freqs.sum + ds.countP (fun o => o.isSome) := by
  induction ds with
  | nil => intro freqs inf _; exact ⟨freqs, rfl, rfl, rfl⟩
  | cons o rest ih =>
    intro freqs inf h
    cases o with
    | none =>
      obtain ⟨f2, he, hlen, hsum⟩ :=
        ih freqs (inf + 1) (fun d hd => h d (List.mem_cons_of_mem _ hd))
      refine ⟨f2, ?_, hlen, ?_⟩
      · rw [histGo, he, List.countP_cons]
        simp only [Option.isNone_none, if_true, Option.some.injEq, Prod.mk.injEq,
          true_and]
        omega
      · rw [hsum, List.countP_cons]
        simp
    | some d =>
      have hd : d < freqs.length := h d (List.mem_cons_self _ _)
      have hstep := incAt_eq_some hd
      obtain ⟨f2, he, hlen, hsum⟩ :=
        ih (freqs.set d (freqs.getD d 0 + 1)) inf
          (fun e he => by rw [List.length_set]; exact h e (List.mem_cons_of_mem _ he))
      refine ⟨f2, ?_, by rw [hlen, List.length_set], ?_⟩
      · simp only [histGo, hstep]
        rw [he, List.countP_cons]
        simp
      · rw [hsum, sum_set_succ hd, List.countP_cons]
        simp only [Option.isSome_some, if_true]
        omega

theorem freqGo_spec (l : List Nat) :
    ∀ (f : List Nat), (∀ x ∈ l, x < f.length) →
    ∃ f2, freqGo l f = some f2 ∧ f2.length = f.length ∧
      f2.sum = f.sum + l.length ∧ ∀ v, f2.getD v 0 = f.getD v 0 + l.count v := by
  induction l with
  | nil => intro f _; exact ⟨f, rfl, rfl, rfl, fun v => by simp⟩
  | cons x rest ih =>
    intro f h
    have hx : x < f.length := h x (List.mem_cons_self _ _)
    have hstep := incAt_eq_some hx
    obtain ⟨f2, he, hlen, hsum, hv⟩ :=
      ih (f.set x (f.getD x 0 + 1))
        (fun e he => by rw [List.length_set]; exact h e (List.mem_cons_of_mem _ he))
    refine ⟨f2, ?_, by rw [hlen, List.length_set], ?_, ?_⟩
    · simp only [freqGo, hstep]
      exact he
    · rw [hsum, sum_set_succ hx, List.length_cons]
      omega
    · intro v
      rw [hv v, List.count_cons]
      by_cases hxv : x = v
      · subst hxv
        rw [getD_set_self _ hx]
        simp
        omega
      · rw [getD_set_ne _ hxv]
        simp [hxv]

theorem mem_le_foldr_max {l : List Nat} {x : Nat} (h : x ∈ l) : x ≤ l.foldr max 0 := by
  induction l with
  | nil => cases h
  | cons y ys ih =>
    rcases List.mem_cons.mp h with rfl | h2
    · exact Nat.le_max_left _ _
    · exact Nat.le_trans (ih h2) (Nat.le_max_right _ _)

theorem listMax?_of_mem {l : List Nat} {x : Nat} (h : x ∈ l) :
    listMax? l = some (l.foldr max 0) := by
  cases l with
  | nil => cases h
  | cons y ys => rfl

/-- The function `frequency_histogram` never hits the out-of-bounds branch, and the vector
it returns has the declared length, total and per-symbol counts. -/
theorem frequency_histogram_spec (t : List Nat) :
    ∃ f, frequency_histogram t = some f ∧
      f.length = ((listMax? t).map (· + 1)).getD 0 ∧
      f.sum = t.length ∧ ∀ v, f.getD v 0 = t.count v := by
  have hbound : ∀ x ∈ t, x < (List.replicate (((listMax? t).map (· + 1)).getD 0) 0).length := by
    intro x hx
    rw [List.length_replicate, listMax?_of_mem hx]
    simpa using Nat.lt_succ_of_le (mem_le_foldr_max hx)
  obtain ⟨f, he, hlen, hsum, hv⟩ := freqGo_spec t _ hbound
  refine ⟨f, he, by rw [hlen, List.length_replicate], ?_, ?_⟩
  · rw [hsum, List.sum_replicate]
    simp
  · intro v
    rw [hv v, getD_replicate_zero]
    omega

theorem length_stack_distance_go : ∀ (l stack : List Nat),
    (stack_distance_go stack l).length = l.length := by
  intro l
  induction l with
  | nil => intro stack; rfl
  | cons c rest ih =>
    intro stack
    rw [stack_distance_go, List.length_cons, List.length_cons, ih]

theorem length_stack_distance (t : List Nat) :
    (stack_distance t).length = t.length :=
  length_stack_distance_go t []

/-- The function `stack_distance_histogram` never hits the out-of-bounds branch; its
infinity count is the number of `none` distances and the total of its count
vector is the number of `some` distances. -/
theorem stack_distance_histogram_spec (t : List Nat) :
    ∃ f inf, stack_distance_histogram t = some (f, inf) ∧
      inf = (stack_distance t).countP (fun o => o.isNone) ∧
      f.sum = (stack_distance t).countP (fun o => o.isSome) := by
  have hbound : ∀ d, some d ∈ stack_distance t →
      d < (match listMax? ((stack_distance t).filterMap id) with
        | none => ([] : List Nat)
        | some m => List.replicate (m + 1) 0).length := by
    intro d hd
    have hmem : d ∈ (stack_distance t).filterMap id :=
      List.mem_filterMap.mpr ⟨some d, hd, rfl⟩
    rw [listMax?_of_mem hmem, List.length_replicate]
    exact Nat.lt_succ_of_le (mem_le_foldr_max hmem)
  obtain ⟨f2, he, _, hsum⟩ := histGo_spec (stack_distance t) _ 0 hbound
  refine ⟨f2, _, he, by omega, ?_⟩
  rw [hsum]
  cases hm : listMax? ((stack_distance t).filterMap id) with
  | none => simp
  | some m => simp [List.sum_replicate]

/-- Claim C10.  Neither histogram construction ever indexes out of bounds:
the embedded indexed increment (`incAt`, whose `none` result is exactly
Rust's out-of-bounds panic) never fails, i.e. both constructions return
`some`.  The count vectors are sized `max finite distance + 1` resp.
`max symbol + 1`, and every finite distance resp. symbol is below that. -/
theorem C10_no_out_of_bounds (t : List Nat) :
    (stack_distance_histogram t).isSome = true ∧
    (frequency_histogram t).isSome = true := by
  obtain ⟨f, inf, he, -, -⟩ := stack_distance_histogram_spec t
  obtain ⟨g, he2, -, -, -⟩ := frequency_histogram_spec t
  rw [he, he2]
  exact ⟨rfl, rfl⟩

/-- Claim C7.  For every trace of length `n`: the sum of the stack-distance
count vector plus the infinite count is `n`, and the sum of the frequency
vector is `n`. -/
theorem C7_totals (t : List Nat) :
    (stack_distance_histogram t).map (fun p => p.1.sum + p.2) = some t.length ∧
    (frequency_histogram t).map (fun f => f.sum) = some t.length := by
  obtain ⟨f, inf, he, hinf, hsum⟩ := stack_distance_histogram_spec t
  obtain ⟨g, he2, -, hgsum, -⟩ := frequency_histogram_spec t
  rw [he, he2]
  constructor
  · show some (f.sum + inf) = some t.length
    refine congrArg some ?_
    rw [hsum, hinf, Nat.add_comm, countNone_add_countSome, length_stack_distance]
  · exact congrArg some hgsum

/-! The LRU lookup step, characterised through a first-occurrence
decomposition of the stack. -/

theorem mem_split_first {c : Nat} {l : List Nat} (h : c ∈ l) :
    ∃ A B, l = A ++ c :: B ∧ ∀ a ∈ A, a ≠ c := by
  induction l with
  | nil => cases h
  | cons x xs ih =>
    by_cases hx : x = c
    · exact ⟨[], xs, by rw [hx]; rfl, by simp⟩
    · rcases List.mem_cons.mp h with h1 | h2
      · exact absurd h1.symm hx
      · obtain ⟨A, B, hAB, hA⟩ := ih h2
        refine ⟨x :: A, B, by rw [List.cons_append, hAB], ?_⟩
        intro a ha
        rcases List.mem_cons.mp ha with rfl | ha2
        · exact hx
        · exact hA a ha2

theorem findIdx?_append_cons (A : List Nat) :
    ∀ (B : List Nat) (c i : Nat), (∀ a ∈ A, a ≠ c) →
    List.findIdx? (fun n => n == c) (A ++ c :: B) i = some (A.length + i) := by
  induction A with
  | nil =>
    intro B c i _
    rw [List.nil_append, List.findIdx?_cons]
    simp
  | cons a A ih =>
    intro B c i hA
    rw [List.cons_append, List.findIdx?_cons]
    have ha : (a == c) = false := by
      simpa using hA a (List.mem_cons_self _ _)
    rw [ha, if_neg (by simp), ih B c (i + 1) (fun a ha => hA a (List.mem_cons_of_mem _ ha))]
    refine congrArg some ?_
    rw [List.length_cons]
    omega

theorem eraseIdx_append_cons : ∀ (A B : List Nat) (c : Nat),
    (A ++ c :: B).eraseIdx A.length = A ++ B := by
  intro A
  induction A with
  | nil => intro B c; rfl
  | cons a A ih =>
    intro B c
    rw [List.cons_append, List.length_cons, List.eraseIdx_cons_succ, ih, List.cons_append]

theorem sdStep_found (A B : List Nat) (c : Nat) (hA : ∀ a ∈ A, a ≠ c) :
    sdStep (A ++ c :: B) c = (some B.length, A ++ (B ++ [c])) := by
  have hf := findIdx?_append_cons A B c 0 hA
  rw [Nat.add_zero] at hf
  simp only [sdStep, hf]
  refine congrArg₂ Prod.mk (congrArg some ?_) ?_
  · simp only [List.length_append, List.length_cons]
    omega
  · rw [eraseIdx_append_cons, List.append_assoc]

theorem sdStep_not_found (stack : List Nat) (c : Nat) (h : c ∉ stack) :
    sdStep stack c = (none, stack ++ [c]) := by
  have hf : stack.findIdx? (fun n => n == c) = none :=
    List.findIdx?_eq_none_iff.mpr (fun x hx => by
      simpa using fun e : x = c => h (e ▸ hx))
  simp only [sdStep, hf]

/-! Itertools `unique`: membership, nodup, and the distinct count. -/

theorem mem_uniqueAux : ∀ (l seen : List Nat) (x : Nat),
    x ∈ uniqueAux seen l ↔ x ∈ l ∧ x ∉ seen := by
  intro l
  induction l with
  | nil => intro seen x; simp [uniqueAux]
  | cons y ys ih =>
    intro seen x
    rw [uniqueAux]
    by_cases hy : y ∈ seen
    · rw [if_pos hy, ih]
      constructor
      · rintro ⟨h1, h2⟩
        exact ⟨List.mem_cons_of_mem _ h1, h2⟩
      · rintro ⟨h1, h2⟩
        rcases List.mem_cons.mp h1 with rfl | h3
        · exact absurd hy h2
        · exact ⟨h3, h2⟩
    · rw [if_neg hy]
      constructor
      · intro h
        rcases List.mem_cons.mp h with rfl | h2
        · exact ⟨List.mem_cons_self _ _, hy⟩
        · obtain ⟨h3, h4⟩ := (ih _ x).mp h2
          exact ⟨List.mem_cons_of_mem _ h3,
            fun hs => h4 (List.mem_cons_of_mem _ hs)⟩
      · rintro ⟨h1, h2⟩
        rcases List.mem_cons.mp h1 with rfl | h3
        · exact List.mem_cons_self _ _
        · by_cases hxy : x = y
          · subst hxy
            exact List.mem_cons_self _ _
          · refine List.mem_cons_of_mem _ ((ih _ x).mpr ⟨h3, ?_⟩)
            intro hm
            rcases List.mem_cons.mp hm with e | hs
            · exact hxy e
            · exact h2 hs

theorem nodup_uniqueAux : ∀ (l seen : List Nat), (uniqueAux seen l).Nodup := by
  intro l
  induction l with
  | nil => intro seen; exact List.nodup_nil
  | cons y ys ih =>
    intro seen
    rw [uniqueAux]
    by_cases hy : y ∈ seen
    · rw [if_pos hy]; exact ih seen
    · rw [if_neg hy]
      refine List.nodup_cons.mpr ⟨?_, ih (y :: seen)⟩
      intro hmem
      exact ((mem_uniqueAux _ _ _).mp hmem).2 (List.mem_cons_self _ _)

theorem mem_unique (l : List Nat) (x : Nat) : x ∈ unique l ↔ x ∈ l := by
  rw [unique, mem_uniqueAux]
  simp

theorem nodup_unique (l : List Nat) : (unique l).Nodup := nodup_uniqueAux l []

theorem length_unique_eq_card (l : List Nat) : (unique l).length = l.toFinset.card := by
  have h1 : (unique l).toFinset = l.toFinset := by
    ext x
    simp [List.mem_toFinset, mem_unique]
  rw [← h1, List.toFinset_card_of_nodup (nodup_unique l)]

theorem countNone_go : ∀ (l stack seen : List Nat),
    (∀ x : Nat, x ∈ stack ↔ x ∈ seen) →
    (stack_distance_go stack l).countP (fun o => o.isNone) = (uniqueAux seen l).length := by
  intro l
  induction l with
  | nil => intro stack seen _; rfl
  | cons c rest ih =>
    intro stack seen hinv
    rw [stack_distance_go, List.countP_cons, uniqueAux]
    by_cases hc : c ∈ stack
    · have hseen : c ∈ seen := (hinv c).mp hc
      obtain ⟨A, B, hAB, hA⟩ := mem_split_first hc
      subst hAB
      rw [sdStep_found A B c hA, if_pos hseen]
      have hinv2 : ∀ x : Nat, x ∈ A ++ (B ++ [c]) ↔ x ∈ seen := by
        intro x
        rw [← hinv x]
        simp only [List.mem_append, List.mem_cons, List.mem_singleton]
        tauto
      rw [ih _ _ hinv2]
      simp
    · have hseen : c ∉ seen := fun hs => hc ((hinv c).mpr hs)
      rw [sdStep_not_found _ _ hc, if_neg hseen]
      have hinv2 : ∀ x : Nat, x ∈ stack ++ [c] ↔ x ∈ c :: seen := by
        intro x
        simp only [List.mem_append, List.mem_singleton, List.mem_cons]
        rw [hinv x]
        tauto
      rw [ih _ _ hinv2, List.length_cons]
      simp

theorem countNone_stack_distance (t : List Nat) :
    (stack_distance t).countP (fun o => o.isNone) = t.toFinset.card := by
  rw [stack_distance, countNone_go t [] [] (fun x => Iff.rfl)]
  exact length_unique_eq_card t

/-! Counting the strictly-positive entries of the frequency vector. -/

theorem countP_getD (f : List Nat) (p : Nat → Bool) :
    f.countP p = ((List.range f.length).filter (fun i => p (f.getD i 0))).length := by
  induction f with
  | nil => rfl
  | cons a f ih =>
    rw [List.countP_cons, List.length_cons, List.range_succ_eq_map, List.filter_cons]
    have hcomp : ((fun i => p ((a :: f).getD i 0)) ∘ Nat.succ) = fun j => p (f.getD j 0) := by
      funext j
      simp [List.getD_cons_succ]
    rw [List.filter_map, hcomp, List.getD_cons_zero]
    by_cases hpa : p a = true
    · rw [hpa, ih]
      simp
    · have hpa2 : p a = false := by simpa using hpa
      rw [hpa2, ih]
      simp

theorem countP_pos_eq_card (t : List Nat) (f : List Nat)
    (hlen : f.length = ((listMax? t).map (· + 1)).getD 0)
    (hv : ∀ v, f.getD v 0 = t.count v) :
    f.countP (fun n => n != 0) = t.toFinset.card := by
  have hK : ∀ x ∈ t, x < f.length := by
    intro x hx
    rw [hlen, listMax?_of_mem hx]
    simpa using Nat.lt_succ_of_le (mem_le_foldr_max hx)
  rw [countP_getD]
  have hfun : (fun i => (fun n => n != 0) (f.getD i 0)) = fun i => (t.count i != 0) := by
    funext i
    rw [hv i]
  rw [hfun]
  have hnd : ((List.range f.length).filter (fun i => t.count i != 0)).Nodup :=
    (List.nodup_range _).filter _
  have hfin : ((List.range f.length).filter (fun i => t.count i != 0)).toFinset = t.toFinset := by
    ext x
    simp only [List.mem_toFinset, List.mem_filter, List.mem_range, bne_iff_ne, ne_eq]
    constructor
    · rintro ⟨-, h2⟩
      exact List.count_pos_iff.mp (Nat.pos_of_ne_zero h2)
    · intro hx
      exact ⟨hK x hx, Nat.pos_iff_ne_zero.mp (List.count_pos_iff.mpr hx)⟩
  rw [← List.toFinset_card_of_nodup hnd, hfin]

/-- Claim C5.  For every trace, the infinite count of the stack-distance
histogram equals the number of strictly-positive entries of the frequency
histogram (the quantity `main.rs`'s `compare` checks with
`.filter(|&&n| n != 0).count()`), and both equal the number of distinct
symbol values present in the trace. -/
theorem C5_infinite_eq_distinct (t : List Nat) :
    (stack_distance_histogram t).map (fun p => p.2) =
      (frequency_histogram t).map (fun f => f.countP (fun n => n != 0)) ∧
    (stack_distance_histogram t).map (fun p => p.2) = some t.toFinset.card := by
  obtain ⟨f, inf, he, hinf, -⟩ := stack_distance_histogram_spec t
  obtain ⟨g, he2, hglen, -, hgv⟩ := frequency_histogram_spec t
  have h1 : inf = t.toFinset.card := by
    rw [hinf, countNone_stack_distance]
  have h2 : g.countP (fun n => n != 0) = t.toFinset.card :=
    countP_pos_eq_card t g hglen hgv
  rw [he, he2]
  constructor
  · show some inf = some (g.countP (fun n => n != 0))
    rw [h1, h2]
  · show some inf = some t.toFinset.card
    rw [h1]

/-! Restricted growth strings: the accumulator view and its algebra. -/

theorem rgsAcc_nil (a : Nat) : rgsAcc a [] = a := rfl

theorem rgsAcc_cons (a x : Nat) (l : List Nat) :
    rgsAcc a (x :: l) = rgsAcc (max a (x + 1)) l := rfl

theorem isRGS_cons (a x : Nat) (l : List Nat) :
    isRGS a (x :: l) = true ↔ x ≤ a ∧ isRGS (max a (x + 1)) l = true := by
  rw [isRGS]
  by_cases h : x ≤ a
  · rw [if_pos h]
    tauto
  · rw [if_neg h]
    simp [h]

theorem isRGS_append (a : Nat) : ∀ (l1 l2 : List Nat),
    isRGS a (l1 ++ l2) = (isRGS a l1 && isRGS (rgsAcc a l1) l2) := by
  intro l1
  induction l1 generalizing a with
  | nil => intro l2; rw [List.nil_append, rgsAcc_nil, isRGS, Bool.true_and]
  | cons x l1 ih =>
    intro l2
    rw [List.cons_append, isRGS, isRGS, rgsAcc_cons]
    by_cases h : x ≤ a
    · rw [if_pos h, if_pos h, ih]
    · rw [if_neg h, if_neg h, Bool.false_and]

theorem isRGS_replicate_zero (a : Nat) : ∀ k, isRGS a (List.replicate k 0) = true := by
  intro k
  induction k generalizing a with
  | zero => rfl
  | succ k ih =>
    rw [List.replicate_succ, isRGS, if_pos (Nat.zero_le a)]
    exact ih _

theorem maxS_cons (x : Nat) (l : List Nat) : maxS (x :: l) = max (x + 1) (maxS l) := rfl

theorem rgsAcc_eq : ∀ (l : List Nat) (a : Nat), rgsAcc a l = max a (maxS l) := by
  intro l
  induction l with
  | nil => intro a; simp [rgsAcc_nil, maxS]
  | cons x xs ih =>
    intro a
    rw [rgsAcc_cons, ih, maxS_cons, Nat.max_assoc]

theorem mem_le_maxS {l : List Nat} {x : Nat} (h : x ∈ l) : x + 1 ≤ maxS l := by
  induction l with
  | nil => cases h
  | cons y ys ih =>
    rw [maxS_cons]
    rcases List.mem_cons.mp h with rfl | h2
    · exact Nat.le_max_left _ _
    · exact Nat.le_trans (ih h2) (Nat.le_max_right _ _)

theorem maxS_eq_foldr : ∀ (l : List Nat), l ≠ [] → maxS l = l.foldr max 0 + 1 := by
  intro l
  induction l with
  | nil => intro h; exact absurd rfl h
  | cons x xs ih =>
    intro _
    cases xs with
    | nil => simp [maxS_cons, maxS]
    | cons y ys =>
      rw [maxS_cons, ih (by simp), List.foldr_cons, Nat.succ_max_succ]
      simp

/-- The tail-zeroing update keeps the restricted-growth invariant as soon as
the written value respects the bound accumulated over the untouched front. -/
theorem isRGS_setAndZero (s : List Nat) (i v : Nat)
    (hs : isRGS 0 s = true) (hv : v ≤ rgsAcc 0 (s.take i)) :
    isRGS 0 (setAndZero s i v) = true := by
  have hsplit : isRGS 0 (s.take i) = true := by
    have h1 : isRGS 0 (s.take i ++ s.drop i) = true := by
      rw [List.take_append_drop]
      exact hs
    rw [isRGS_append] at h1
    simp only [Bool.and_eq_true] at h1
    exact h1.1
  rw [setAndZero, isRGS_append, hsplit, Bool.true_and, isRGS_cons]
  exact ⟨hv, isRGS_replicate_zero _ _⟩

/-! For a restricted growth string the stable dedup is an initial segment
`[0, 1, ..., k-1]`, and positions in it are the values themselves. -/

theorem uniqueAux_rgs : ∀ (l : List Nat) (a : Nat) (seen : List Nat),
    (∀ x : Nat, x ∈ seen ↔ x < a) → isRGS a l = true →
    ∃ m, uniqueAux seen l = List.range' a m := by
  intro l
  induction l with
  | nil => intro a seen _ _; exact ⟨0, rfl⟩
  | cons x xs ih =>
    intro a seen hseen h
    obtain ⟨hxa, hrest⟩ := (isRGS_cons _ _ _).mp h
    rw [uniqueAux]
    by_cases hx : x ∈ seen
    · rw [if_pos hx]
      have hlt : x < a := (hseen x).mp hx
      have hmax : max a (x + 1) = a := by omega
      rw [hmax] at hrest
      exact ih a seen hseen hrest
    · rw [if_neg hx]
      have h1 : ¬x < a := fun hlt => hx ((hseen x).mpr hlt)
      have hxeq : x = a := by omega
      have hmax : max a (x + 1) = a + 1 := by omega
      rw [hmax] at hrest
      obtain ⟨m, hm⟩ := ih (a + 1) (x :: seen)
        (fun y => by simp only [List.mem_cons]; rw [hseen y]; omega) hrest
      refine ⟨m + 1, ?_⟩
      rw [hm, hxeq, List.range'_succ]

theorem unique_eq_range' (s : List Nat) (hs : isRGS 0 s = true) :
    ∃ m, unique s = List.range' 0 m :=
  uniqueAux_rgs s 0 [] (fun x => by simp) hs

theorem findIdx_range' : ∀ (m a v : Nat), a ≤ v → v < a + m →
    List.findIdx (fun x => x == v) (List.range' a m) = v - a := by
  intro m
  induction m with
  | zero => intro a v h1 h2; omega
  | succ m ih =>
    intro a v h1 h2
    rw [List.range'_succ, List.findIdx_cons]
    by_cases hav : a = v
    · have ht : (a == v) = true := by simpa using hav
      rw [ht]
      simp [hav]
    · have hf : (a == v) = false := by simpa using hav
      rw [hf]
      have := ih (a + 1) v (by omega) (by omega)
      simp only [cond_false, this]
      omega

theorem getD_range' (a m j : Nat) (h : j < m) :
    (List.range' a m).getD j 0 = a + j := by
  have hl : j < (List.range' a m).length := by
    rw [List.length_range']
    exact h
  rw [List.getD_eq_getElem _ _ hl]
  exact List.getElem_range'_1 j hl

/-! `findIdx` facts used by the scan. -/

theorem findIdx_le_of_getD {l : List Nat} {pred : Nat → Bool} :
    ∀ {i : Nat}, i < l.length → pred (l.getD i 0) = true → l.findIdx pred ≤ i := by
  induction l with
  | nil => intro i hi _; cases hi
  | cons x xs ih =>
    intro i hi hp
    rw [List.findIdx_cons]
    by_cases hx : pred x = true
    · rw [hx]
      simp
    · have hx2 : pred x = false := by simpa using hx
      rw [hx2]
      cases i with
      | zero => rw [List.getD_cons_zero] at hp; exact absurd hp hx
      | succ j =>
        rw [List.getD_cons_succ] at hp
        have h3 := ih (Nat.lt_of_succ_lt_succ hi) hp
        simp only [cond_false]
        omega

theorem getD_findIdx_of_lt {l : List Nat} {pred : Nat → Bool}
    (h : l.findIdx pred < l.length) : pred (l.getD (l.findIdx pred) 0) = true := by
  have h2 := List.findIdx_getElem (w := h)
  rwa [List.getD_eq_getElem _ _ h]

theorem getD_mem_take {s : List Nat} {j i : Nat} (hji : j < i) (hjs : j < s.length) :
    s.getD j 0 ∈ s.take i := by
  have h1 : j < (s.take i).length := by
    rw [List.length_take]
    omega
  have h2 : (s.take i).getD j 0 = s.getD j 0 := by
    rw [List.getD_eq_getElem _ _ h1, List.getD_eq_getElem _ _ hjs]
    simp [List.getElem_take]
  rw [← h2, List.getD_eq_getElem _ _ h1]
  exact List.getElem_mem h1

/-- The heart of claim C3: one scan step on a restricted growth string only
ever produces restricted growth strings (whichever position it fires at). -/
theorem scanGo_preserves (s : List Nat) (hs : isRGS 0 s = true) :
    ∀ fuel, fuel ≤ s.length → ∀ s', scanGo s (unique s) fuel = some s' →
    isRGS 0 s' = true := by
  intro fuel
  induction fuel with
  | zero =>
    intro _ s' h
    rw [scanGo] at h
    injection h with h
    subst h
    exact hs
  | succ i ih =>
    intro hle s' hstep
    have hi : i < s.length := hle
    simp only [scanGo] at hstep
    by_cases hb1 : (unique s).findIdx (fun x => x == s.getD i 0) = (unique s).length - 1
    · rw [if_pos hb1] at hstep
      by_cases hb1' : s.findIdx (fun x => x == s.getD i 0) ≠ i
      · rw [if_pos hb1'] at hstep
        injection hstep with hstep
        subst hstep
        have hji : s.findIdx (fun x => x == s.getD i 0) ≤ i :=
          findIdx_le_of_getD hi (by simp)
        have hjlt : s.findIdx (fun x => x == s.getD i 0) < i :=
          Nat.lt_of_le_of_ne hji hb1'
        have hjs : s.findIdx (fun x => x == s.getD i 0) < s.length :=
          Nat.lt_trans hjlt hi
        have hval : s.getD (s.findIdx (fun x => x == s.getD i 0)) 0 = s.getD i 0 := by
          have h4 := getD_findIdx_of_lt hjs
          simpa using h4
        have hmem : s.getD i 0 ∈ s.take i := by
          rw [← hval]
          exact getD_mem_take hjlt hjs
        apply isRGS_setAndZero s i (s.getD i 0 + 1) hs
        rw [rgsAcc_eq]
        have h5 := mem_le_maxS hmem
        omega
      · rw [if_neg hb1'] at hstep
        exact ih (Nat.le_of_succ_le hle) s' hstep
    · rw [if_neg hb1] at hstep
      by_cases hb2 : i = 0
      · rw [if_pos hb2] at hstep
        exact Option.noConfusion hstep
      · rw [if_neg hb2] at hstep
        by_cases hb3 : s.getD i 0 ≤ s.getD (i - 1) 0
        · rw [if_pos hb3] at hstep
          injection hstep with hstep
          subst hstep
          obtain ⟨m, hm⟩ := unique_eq_range' s hs
          have hvs : s.getD i 0 ∈ s := by
            rw [List.getD_eq_getElem _ _ hi]
            exact List.getElem_mem hi
          have hvu : s.getD i 0 ∈ unique s := (mem_unique s _).mpr hvs
          have hvm : s.getD i 0 < m := by
            rw [hm] at hvu
            have h4 := List.mem_range'_1.mp hvu
            omega
          have hrank : (unique s).findIdx (fun x => x == s.getD i 0) = s.getD i 0 := by
            rw [hm, findIdx_range' m 0 _ (Nat.zero_le _) (by omega)]
            omega
          have hlen : (unique s).length = m := by
            rw [hm, List.length_range']
          have hvm1 : s.getD i 0 + 1 < m := by
            rw [hrank, hlen] at hb1
            omega
          have hnext : (unique s).getD
              ((unique s).findIdx (fun x => x == s.getD i 0) + 1) 0 = s.getD i 0 + 1 := by
            rw [hrank, hm, getD_range' 0 m _ hvm1]
            omega
          rw [hnext]
          have hprev : s.getD (i - 1) 0 ∈ s.take i :=
            getD_mem_take (by omega) (by omega)
          apply isRGS_setAndZero s i (s.getD i 0 + 1) hs
          rw [rgsAcc_eq]
          have h5 := mem_le_maxS hprev
          omega
        · rw [if_neg hb3] at hstep
          exact ih (Nat.le_of_succ_le hle) s' hstep

/-! Equivalence of the spec's indexed canonical-form statement with the
accumulator form. -/

theorem isRGS_iff_getD : ∀ (l : List Nat) (a : Nat),
    isRGS a l = true ↔ ∀ i, i < l.length → l.getD i 0 ≤ rgsAcc a (l.take i) := by
  intro l
  induction l with
  | nil => intro a; simp [isRGS]
  | cons x xs ih =>
    intro a
    rw [isRGS_cons]
    constructor
    · rintro ⟨h1, h2⟩ i hi
      cases i with
      | zero =>
        rw [List.getD_cons_zero, List.take_zero, rgsAcc_nil]
        exact h1
      | succ j =>
        rw [List.getD_cons_succ, List.take_succ_cons, rgsAcc_cons]
        exact (ih _).mp h2 j (Nat.lt_of_succ_lt_succ hi)
    · intro h
      refine ⟨?_, ?_⟩
      · have h0 := h 0 (Nat.succ_pos _)
        rw [List.getD_cons_zero, List.take_zero, rgsAcc_nil] at h0
        exact h0
      · rw [ih]
        intro j hj
        have hs := h (j + 1) (Nat.succ_lt_succ hj)
        rw [List.getD_cons_succ, List.take_succ_cons, rgsAcc_cons] at hs
        exact hs

theorem rgsAcc_take_eq (s : List Nat) (i : Nat) (hpos : 0 < i) (hle : i ≤ s.length) :
    rgsAcc 0 (s.take i) = prefixMaxAt s i + 1 := by
  have hne : s.take i ≠ [] := by
    intro h
    have h2 : (s.take i).length = 0 := by rw [h]; rfl
    rw [List.length_take] at h2
    omega
  rw [rgsAcc_eq, maxS_eq_foldr _ hne, prefixMaxAt]
  omega

theorem canonical_iff_isRGS (s : List Nat) : canonical s ↔ isRGS 0 s = true := by
  rw [canonical, isRGS_iff_getD]
  constructor
  · rintro ⟨h0, hi⟩ i hilen
    cases Nat.eq_zero_or_pos i with
    | inl h =>
      subst h
      rw [List.take_zero, rgsAcc_nil, h0 (by omega)]
    | inr hpos =>
      rw [rgsAcc_take_eq s i hpos (Nat.le_of_lt hilen)]
      exact hi i hpos hilen
  · intro h
    refine ⟨?_, ?_⟩
    · intro hlen
      have h0 := h 0 hlen
      rw [List.take_zero, rgsAcc_nil] at h0
      omega
    · intro i hpos hilen
      have h1 := h i hilen
      rwa [rgsAcc_take_eq s i hpos (Nat.le_of_lt hilen)] at h1

theorem runIter_inv : ∀ (k : Nat) (st : Option (List Nat)),
    (∀ s, st = some s → isRGS 0 s = true) →
    ∀ t, some t ∈ runIter st k → isRGS 0 t = true := by
  intro k
  induction k with
  | zero => intro st _ t h; cases h
  | succ k ih =>
    intro st hinv t h
    cases st with
    | none =>
      rw [runIter] at h
      simp only [TraceIter.next] at h
      rcases List.mem_cons.mp h with h1 | h2
      · exact Option.noConfusion h1
      · exact ih none (fun s hs => Option.noConfusion hs) t h2
    | some s =>
      rw [runIter] at h
      simp only [TraceIter.next] at h
      rcases List.mem_cons.mp h with h1 | h2
      · injection h1 with h1
        rw [h1]
        exact hinv s rfl
      · exact ih (TraceIter.step s)
          (fun u hu => scanGo_preserves s (hinv s rfl) s.length le_rfl u hu) t h2

/-- Claim C3.  Every trace emitted by the enumerator — for any length `n` and
any number of steps — satisfies the canonical-form (restricted growth string)
invariant exactly as the spec states it: `s[0] = 0` and `s[i] ≤ 1 +
max(s[0..i))` for `i > 0`.  The initial all-zero buffer is canonical and the
successor step preserves canonicity. -/
theorem C3_emitted_canonical (n k : Nat) (t : List Nat)
    (h : some t ∈ runIter (TraceIter.new n) k) : canonical t := by
  rw [canonical_iff_isRGS]
  refine runIter_inv k (TraceIter.new n) ?_ t h
  intro s hs
  rw [TraceIter.new] at hs
  injection hs with hs
  rw [← hs]
  exact isRGS_replicate_zero 0 n

/-- Witness for `C3_emitted_canonical`: the second trace emitted for `n = 3`
is `[0,0,1]`, and it is canonical. -/
theorem C3_witness : some [0,0,1] ∈ runIter (TraceIter.new 3) 2 ∧ canonical [0,0,1] :=
  ⟨by decide, C3_emitted_canonical 3 2 [0,0,1] (by decide)⟩

/-! Display. -/

theorem foldr_max_lt_iff : ∀ (l : List Nat) (c : Nat), 0 < c →
    (l.foldr max 0 < c ↔ ∀ x ∈ l, x < c) := by
  intro l c hc
  induction l with
  | nil => simpa using hc
  | cons x xs ih =>
    rw [List.foldr_cons, Nat.max_lt, ih]
    constructor
    · rintro ⟨h1, h2⟩ y hy
      rcases List.mem_cons.mp hy with rfl | h3
      · exact h1
      · exact h2 y h3
    · intro h
      exact ⟨h x (List.mem_cons_self _ _), fun y hy => h y (List.mem_cons_of_mem _ hy)⟩

theorem belowLetters_iff (t : List Nat) : belowLetters t = true ↔ ∀ x ∈ t, x < 26 := by
  rw [belowLetters, listMax?]
  by_cases he : t.isEmpty
  · rw [if_pos he]
    rw [List.isEmpty_iff] at he
    subst he
    simp
  · rw [if_neg he]
    show decide (t.foldr max 0 < 26) = true ↔ ∀ x ∈ t, x < 26
    rw [decide_eq_true_eq]
    exact foldr_max_lt_iff t 26 (by omega)

theorem join_singleton_mk (l : List Nat) (f : Nat → Char) :
    String.join (l.map fun i => String.mk [f i]) = String.mk (l.map f) := by
  apply String.ext
  rw [String.data_join]
  show (List.map String.data (l.map fun i => String.mk [f i])).flatten = l.map f
  rw [List.map_map]
  have hcomp : (String.data ∘ fun i => String.mk [f i]) = fun i => [f i] := rfl
  rw [hcomp]
  induction l with
  | nil => rfl
  | cons x xs ih =>
    rw [List.map_cons, List.flatten_cons, ih, List.map_cons]
    rfl

/-- Claim C9 (amended).  If every symbol is below 26, the rendering is the
no-separator concatenation of the letters `0 -> 'A', 1 -> 'B', …`; otherwise
it is the concatenation of each symbol's decimal value followed by one space
(space-separated values with a trailing space — the one place the original
claim, which said "separated by spaces", is off). -/
theorem C9_amended (t : List Nat) :
    ((∀ x ∈ t, x < 26) →
      traceDisplay t = String.join (t.map fun i => String.mk [Char.ofNat (i + 65)])) ∧
    ((∃ x ∈ t, 26 ≤ x) →
      traceDisplay t = String.join (t.map fun i => toString i ++ " ")) := by
  constructor
  · intro h
    rw [traceDisplay, if_pos ((belowLetters_iff t).mpr h), join_singleton_mk]
  · rintro ⟨x, hx, hx26⟩
    rw [traceDisplay, if_neg ?_]
    intro hb
    have h2 := (belowLetters_iff t).mp hb x hx
    omega

/-- Witness for `C9_amended`: `[0,1]` renders as the letters `"AB"`, and
`[26]` as `"26 "`. -/
theorem C9_witness :
    traceDisplay [0, 1] = String.join ([0, 1].map fun i => String.mk [Char.ofNat (i + 65)]) ∧
    traceDisplay [26] = String.join ([26].map fun i => toString i ++ " ") :=
  ⟨(C9_amended [0, 1]).1 (by decide), (C9_amended [26]).2 ⟨26, by decide, by decide⟩⟩

/-! The LRU stack model for the stack-distance specification (claim C6). -/

theorem mem_lruUpd {stack : List Nat} {c x : Nat} :
    x ∈ lruUpd stack c ↔ x ∈ stack ∨ x = c := by
  rw [lruUpd]
  simp only [List.mem_append, List.mem_filter, List.mem_singleton, decide_eq_true_eq]
  constructor
  · rintro (⟨h1, -⟩ | h2)
    · exact Or.inl h1
    · exact Or.inr h2
  · rintro (h1 | h2)
    · by_cases hxc : x = c
      · exact Or.inr hxc
      · exact Or.inl ⟨h1, hxc⟩
    · exact Or.inr h2

theorem lruUpd_nodup {stack : List Nat} (h : stack.Nodup) (c : Nat) :
    (lruUpd stack c).Nodup := by
  rw [lruUpd]
  refine (h.filter _).append (List.nodup_singleton c) ?_
  intro a ha hc
  rw [List.mem_singleton] at hc
  subst hc
  have h2 := (List.mem_filter.mp ha).2
  simp at h2

theorem mem_foldl_lruUpd : ∀ (p stack : List Nat) (x : Nat),
    x ∈ p.foldl lruUpd stack ↔ x ∈ stack ∨ x ∈ p := by
  intro p
  induction p with
  | nil => intro stack x; simp
  | cons c rest ih =>
    intro stack x
    rw [List.foldl_cons, ih, mem_lruUpd]
    rw [List.mem_cons]
    tauto

theorem foldl_lruUpd_nodup : ∀ (p stack : List Nat), stack.Nodup →
    (p.foldl lruUpd stack).Nodup := by
  intro p
  induction p with
  | nil => intro stack h; exact h
  | cons c rest ih =>
    intro stack h
    rw [List.foldl_cons]
    exact ih _ (lruUpd_nodup h c)

theorem sdStep_snd_eq_lruUpd {stack : List Nat} (h : stack.Nodup) (c : Nat) :
    (sdStep stack c).2 = lruUpd stack c := by
  by_cases hc : c ∈ stack
  · obtain ⟨A, B, hAB, hA⟩ := mem_split_first hc
    subst hAB
    have hB : ∀ b ∈ B, b ≠ c := by
      rw [List.nodup_append] at h
      obtain ⟨-, h3, -⟩ := h
      have hc2 : c ∉ B := (List.nodup_cons.mp h3).1
      exact fun b hb e => hc2 (e ▸ hb)
    rw [sdStep_found A B c hA, lruUpd, List.filter_append, List.filter_cons]
    have hfA : A.filter (fun x => x ≠ c) = A :=
      List.filter_eq_self.mpr (fun a ha => by simpa using hA a ha)
    have hfB : B.filter (fun x => x ≠ c) = B :=
      List.filter_eq_self.mpr (fun b hb => by simpa using hB b hb)
    rw [hfA, hfB, if_neg (by simp)]
    rw [List.append_assoc]
  · rw [sdStep_not_found _ _ hc, lruUpd]
    have hf : stack.filter (fun x => x ≠ c) = stack :=
      List.filter_eq_self.mpr (fun a ha => by
        simpa using fun e : a = c => hc (e ▸ ha))
    rw [hf]

/-- After processing `P1 ++ c :: Q` with `c` not accessed again in `Q`, the
LRU stack holds `c` with exactly the distinct symbols of `Q` above it. -/
theorem lruStack_decomp : ∀ (q : List Nat) (c : Nat), c ∉ q → ∀ (p1 : List Nat),
    ∃ A B, lruStack (p1 ++ c :: q) = A ++ c :: B ∧ (∀ a ∈ A, a ≠ c) ∧
      B.toFinset = q.toFinset := by
  intro q
  induction q using List.reverseRecOn with
  | nil =>
    intro c _ p1
    refine ⟨(lruStack p1).filter (fun x => x ≠ c), [], ?_, ?_, rfl⟩
    · rw [lruStack, List.foldl_append]
      rfl
    · intro a ha
      have h2 := (List.mem_filter.mp ha).2
      simpa using h2
  | append_singleton q' e ih =>
    intro c hc p1
    have hcQ : c ∉ q' := fun h => hc (List.mem_append.mpr (Or.inl h))
    have hce : c ≠ e := fun h =>
      hc (List.mem_append.mpr (Or.inr (h ▸ List.mem_singleton.mpr rfl)))
    obtain ⟨A, B, hAB, hA, hBQ⟩ := ih c hcQ p1
    have heq : p1 ++ c :: (q' ++ [e]) = (p1 ++ c :: q') ++ [e] := by simp
    refine ⟨A.filter (fun x => x ≠ e), B.filter (fun x => x ≠ e) ++ [e], ?_, ?_, ?_⟩
    · rw [heq, lruStack, List.foldl_append]
      show lruUpd (lruStack (p1 ++ c :: q')) e = _
      rw [hAB, lruUpd, List.filter_append, List.filter_cons, if_pos (by simpa using hce)]
      simp [List.append_assoc]
    · intro a ha
      exact hA a (List.mem_filter.mp ha).1
    · ext x
      simp only [List.mem_toFinset, List.mem_append, List.mem_filter,
        List.mem_singleton, decide_eq_true_eq]
      have hx : x ∈ B ↔ x ∈ q' := by
        rw [← List.mem_toFinset, hBQ, List.mem_toFinset]
      rw [hx]
      by_cases hxe : x = e
      · subst hxe
        tauto
      · tauto

/-- Traversal: the `i`-th recorded distance is the lookup step at the LRU
stack accumulated over the first `i` accesses. -/
theorem go_getD : ∀ (l stack : List Nat), stack.Nodup →
    ∀ i, i < l.length →
    (stack_distance_go stack l).getD i none =
      (sdStep ((l.take i).foldl lruUpd stack) (l.getD i 0)).1 := by
  intro l
  induction l with
  | nil => intro stack _ i hi; cases hi
  | cons c rest ih =>
    intro stack hnd i hi
    rw [stack_distance_go]
    cases i with
    | zero => rfl
    | succ j =>
      rw [List.getD_cons_succ, sdStep_snd_eq_lruUpd hnd c,
        ih (lruUpd stack c) (lruUpd_nodup hnd c) j (Nat.lt_of_succ_lt_succ hi),
        List.take_succ_cons, List.foldl_cons, List.getD_cons_succ]

/-- Splitting the processed prefix at a distinguished position `j < i`. -/
theorem take_decomp_last {t : List Nat} {i j : Nat} (hj : j < i) (hi : i ≤ t.length) :
    t.take i = t.take j ++ t.getD j 0 :: ((t.drop (j + 1)).take (i - j - 1)) := by
  have hjt : j < t.length := by omega
  conv_lhs => rw [← List.take_append_drop j (t.take i)]
  rw [List.take_take, min_eq_left (by omega), List.drop_take,
    List.drop_eq_getElem_cons hjt]
  have hsub : i - j = (i - j - 1) + 1 := by omega
  rw [hsub, List.take_succ_cons, List.getD_eq_getElem _ _ hjt]
  have hsub2 : i - j - 1 + 1 - 1 = i - j - 1 := by omega
  rw [hsub2]

theorem not_mem_slice {t : List Nat} {i j : Nat} (hj : j < i) (hi : i ≤ t.length)
    (hbet : ∀ k, k < i → j < k → t.getD k 0 ≠ t.getD i 0) :
    t.getD i 0 ∉ (t.drop (j + 1)).take (i - j - 1) := by
  intro hmem
  obtain ⟨r, hr, he⟩ := List.mem_iff_getElem.mp hmem
  have hrb : r < i - j - 1 ∧ j + 1 + r < t.length := by
    have h2 := hr
    simp only [List.length_take, List.length_drop] at h2
    omega
  have he2 : t.getD (j + 1 + r) 0 = t.getD i 0 := by
    rw [List.getD_eq_getElem _ _ hrb.2, ← he]
    rw [List.getElem_take, List.getElem_drop]
  exact hbet (j + 1 + r) (by omega) (by omega) he2

/-- Claim C6.  For every trace and position `i`: the `i`-th stack-distance
entry is finite exactly when `trace[i]` occurs in `trace[0..i)` (infinite
exactly at first occurrences); and when `j` is the most recent prior access
of the same symbol (`j < i`, equal symbol, no equal symbol strictly between),
the entry equals the number of distinct symbols accessed since then — the
cardinality of the set of symbols in `trace(j..i)`. -/
theorem C6_stack_distance_entries (t : List Nat) (i : Nat) (hi : i < t.length) :
    ((sdAt t i).isSome = true ↔ t.getD i 0 ∈ t.take i) ∧
    (∀ j, j < i → t.getD j 0 = t.getD i 0 →
      (∀ k, k < i → j < k → t.getD k 0 ≠ t.getD i 0) →
      sdAt t i = some (((t.drop (j + 1)).take (i - j - 1)).toFinset.card)) := by
  have hmain : sdAt t i = (sdStep ((t.take i).foldl lruUpd []) (t.getD i 0)).1 := by
    rw [sdAt, stack_distance]
    exact go_getD t [] List.nodup_nil i hi
  constructor
  · rw [hmain]
    constructor
    · intro hsome
      by_contra hmem
      have hns : t.getD i 0 ∉ (t.take i).foldl lruUpd [] := by
        rw [mem_foldl_lruUpd]
        rintro (h1 | h2)
        · cases h1
        · exact hmem h2
      rw [sdStep_not_found _ _ hns] at hsome
      simp at hsome
    · intro hmem
      have hms : t.getD i 0 ∈ (t.take i).foldl lruUpd [] :=
        (mem_foldl_lruUpd _ _ _).mpr (Or.inr hmem)
      obtain ⟨A, B, hAB, hA⟩ := mem_split_first hms
      rw [hAB, sdStep_found A B _ hA]
      rfl
  · intro j hj hjv hbet
    have hdec := take_decomp_last hj (Nat.le_of_lt hi)
    rw [hjv] at hdec
    have hcQ : t.getD i 0 ∉ (t.drop (j + 1)).take (i - j - 1) :=
      not_mem_slice hj (Nat.le_of_lt hi) hbet
    obtain ⟨A, B, hABt, hA, hBQ⟩ := lruStack_decomp _ (t.getD i 0) hcQ (t.take j)
    have hst : (t.take i).foldl lruUpd [] = A ++ t.getD i 0 :: B := by
      rw [hdec]
      exact hABt
    rw [hmain, hst, sdStep_found A B _ hA]
    refine congrArg some ?_
    have hnd : (A ++ t.getD i 0 :: B).Nodup := by
      rw [← hst]
      exact foldl_lruUpd_nodup _ _ List.nodup_nil
    have hndB : B.Nodup := by
      rw [List.nodup_append] at hnd
      exact (List.nodup_cons.mp hnd.2.1).2
    rw [← List.toFinset_card_of_nodup hndB, hBQ]

/-- Witness for `C6_stack_distance_entries` at `t = [1,2,3,1]`, `i = 3`,
`j = 0`: the entry is finite, and equals the number of distinct symbols in
between (`{2,3}`, i.e. 2). -/
theorem C6_witness :
    sdAt [1, 2, 3, 1] 3 =
      some ((([1, 2, 3, 1] : List Nat).drop 1).take 2).toFinset.card ∧
    (sdAt [1, 2, 3, 1] 3).isSome = true :=
  ⟨(C6_stack_distance_entries [1, 2, 3, 1] 3 (by decide)).2 0 (by decide) (by decide)
      (by decide),
   ((C6_stack_distance_entries [1, 2, 3, 1] 3 (by decide)).1).mpr (by decide)⟩
